import Mathlib

/-
Verification of the mongoose-tenant plugin (src/lib/index.ts) against its
specification.  The development shallowly embeds the plugin code:

* JS objects (documents, query filters, update payloads, index key
  specifications) become association lists with JS assignment semantics
  (an existing key keeps its position and gets the new value, a new key is
  appended) via setEntry / getEntry.

* The bound-model overrides (aggregate, deleteOne, deleteMany, remove,
  insertMany, found at src/lib/index.ts lines 50-153) become pure functions
  computing the argument lists handed to the base model.

* The middleware hooks installed by MongoTenant.installMiddleWare
  (lines 402-436) become functions from query/update/document state to the
  rewritten state together with the flag whether next() was invoked.

* The schema index rewriting of MongoTenant.compoundIndexes (lines 275-304)
  operates on a schema model holding field paths and explicit schema-level
  indexes; the external mongoose behaviour of Schema.prototype.indexes()
  (field-level index options yield a per-field index, rebuilt afresh on
  every call, concatenated with the stored schema-level index tuples) is
  reflected in schemaIndexes.

* The external MongoDB query and unique-index semantics (matching a filter,
  rejecting a write that duplicates a unique key) are modelled by docMatches,
  evalStage and saveOk.
-/

namespace MongooseTenant

/-- JS runtime values as far as the plugin observes them: tenant identifiers
and document field values. -/
inductive TValue where
  | str (s : String)
  | num (n : Int)
  | boolV (b : Bool)
deriving DecidableEq

/-- JS String(x) conversion, used by the model cache key in
MongoTenant.injectApi (src/lib/index.ts line 321). -/
def jsString : TValue → String
  | .str s => s
  | .num n => toString n
  | .boolV b => if b then "true" else "false"

/-- JS object assignment obj[k] = v on an association list: an existing key
keeps its position and receives the new value, a fresh key is appended.
This also models the object literal spread-and-set pattern used by the
middleware hooks. -/
def setEntry {α : Type} : List (String × α) → String → α → List (String × α)
  | [], k, v => [(k, v)]
  | (k0, v0) :: rest, k, v =>
      if k0 = k then (k0, v) :: rest else (k0, v0) :: setEntry rest k v

/-- JS property read obj[k] on an association list. -/
def getEntry {α : Type} : List (String × α) → String → Option α
  | [], _ => none
  | (k0, v0) :: rest, k => if k0 = k then some v0 else getEntry rest k

/-- A document, query filter or update payload: a JS object mapping field
names to values. -/
abbrev Doc := List (String × TValue)

/-- Sequential JS object assignment of every entry of p onto d, used for the
spec of applying an update payload to a document and for the index key
rewriting loop of MongoTenant.compoundIndexes. -/
def applyEntries {α : Type} (p : List (String × α)) (d : List (String × α)) :
    List (String × α) :=
  p.foldl (fun acc kv => setEntry acc kv.1 kv.2) d

/-- Models the external MongoDB equality-filter semantics: a document is
matched by a filter when every filter entry equals the corresponding
document field. -/
def docMatches (d : Doc) (f : Doc) : Bool :=
  f.all fun kv => decide (getEntry d kv.1 = some kv.2)

/-- The preFindOrCount hook of MongoTenant.installMiddleWare
(src/lib/index.ts lines 405-410), registered for find, findOne,
findOneAndRemove, count and countDocuments.  ctx is none on the unbound base
model (hasTenantContext absent) and some t on a model bound to tenant t.
The result pairs the rewritten query filter with the flag whether next() was
called. -/
def preFindOrCount (k : String) (ctx : Option TValue) (q : Doc) : Doc × Bool :=
  match ctx with
  | some t => (setEntry q k t, true)
  | none => (q, true)

/-- The preUpdate hook (src/lib/index.ts lines 417-424), registered for
findOneAndUpdate, update and updateMany: merges the tenant into the query
filter and force-sets it in the update payload.  Returns the rewritten
query, the rewritten update payload and the next() flag. -/
def preUpdate (k : String) (ctx : Option TValue) (q u : Doc) :
    Doc × Doc × Bool :=
  match ctx with
  | some t => (setEntry q k t, setEntry u k t, true)
  | none => (q, u, true)

/-- The preSave hook (src/lib/index.ts lines 429-433): force-sets the tenant
field on the document being saved.  Returns the rewritten document and the
next() flag. -/
def preSave (k : String) (ctx : Option TValue) (d : Doc) : Doc × Bool :=
  match ctx with
  | some t => (setEntry d k t, true)
  | none => (d, true)

/-- Aggregation pipeline stages as far as the plugin inspects them: a match
stage carrying a filter object, and the selective stages limit and skip. -/
inductive Stage where
  | matchS (f : Doc)
  | limit (n : Nat)
  | skip (n : Nat)
deriving DecidableEq

/-- The pipeline rewriting performed by the bound-model aggregate override
(src/lib/index.ts lines 50-66).  The argument none models a call without a
pipeline; the result none models the TypeError thrown when the code reads
the first element of an empty pipeline array (an empty array is truthy in
JS, so the guard does not catch it, and the subsequent property read on
undefined throws). -/
def aggregateArgs (k : String) (t : TValue) :
    Option (List Stage) → Option (List Stage)
  | none => some [Stage.matchS [(k, t)]]
  | some [] => none
  | some (Stage.matchS f :: rest) =>
      some (Stage.matchS (setEntry f k t) :: rest)
  | some (s :: rest) => some (Stage.matchS [(k, t)] :: s :: rest)

/-- Models the external MongoDB evaluation of a single pipeline stage. -/
def evalStage (s : Stage) (l : List Doc) : List Doc :=
  match s with
  | .matchS f => l.filter fun d => docMatches d f
  | .limit n => l.take n
  | .skip n => l.drop n

/-- Models the external MongoDB evaluation of a pipeline. -/
def evalPipeline (stages : List Stage) (l : List Doc) : List Doc :=
  stages.foldl (fun acc s => evalStage s acc) l

/-- Arguments of the delete family of overrides: a JS object (filter or
options, both plain objects) or a function (trailing callback). -/
inductive DelArg where
  | obj (f : Doc)
  | fn
deriving DecidableEq

/-- The deleteOne override of the bound model (src/lib/index.ts
lines 68-84): computes the argument list passed to super.deleteOne. -/
def deleteOneArgs (k : String) (t : TValue) (args : List DelArg) :
    List DelArg :=
  match args with
  | [] => [DelArg.obj [(k, t)]]
  | DelArg.fn :: rest => DelArg.obj [(k, t)] :: DelArg.fn :: rest
  | DelArg.obj f :: rest => DelArg.obj (setEntry f k t) :: rest

/-- The deleteMany override (src/lib/index.ts lines 86-102), textually
identical to deleteOne. -/
def deleteManyArgs (k : String) (t : TValue) (args : List DelArg) :
    List DelArg :=
  match args with
  | [] => [DelArg.obj [(k, t)]]
  | DelArg.fn :: rest => DelArg.obj [(k, t)] :: DelArg.fn :: rest
  | DelArg.obj f :: rest => DelArg.obj (setEntry f k t) :: rest

/-- The remove override (src/lib/index.ts lines 104-120), textually
identical to deleteOne. -/
def removeArgs (k : String) (t : TValue) (args : List DelArg) :
    List DelArg :=
  match args with
  | [] => [DelArg.obj [(k, t)]]
  | DelArg.fn :: rest => DelArg.obj [(k, t)] :: DelArg.fn :: rest
  | DelArg.obj f :: rest => DelArg.obj (setEntry f k t) :: rest

/-- The docs parameter of insertMany: a single document or an array of
documents (src/lib/index.ts line 123 and lines 132-139). -/
inductive DocsArg where
  | single (d : Doc)
  | array (ds : List Doc)
deriving DecidableEq

/-- The list of documents carried by a docs argument. -/
def docsArgList : DocsArg → List Doc
  | .single d => [d]
  | .array ds => ds

/-- The document rewriting of the insertMany override (src/lib/index.ts
lines 133-139): force-set the tenant field on the single document or on
every element of the array. -/
def insertManyDocs (k : String) (t : TValue) : DocsArg → DocsArg
  | .single d => .single (setEntry d k t)
  | .array ds => .array (ds.map fun d => setEntry d k t)

/-- The options parameter of insertMany: an options object or a function
(the callback passed in options position). -/
inductive InsOpt where
  | opts (o : Doc)
  | fn
deriving DecidableEq

/-- The callback resolution of insertMany (src/lib/index.ts line 130):
cb is the options argument when that is a function, otherwise the callback
argument.  The Bool records whether a completion callback exists. -/
def insertManyCb (o : Option InsOpt) (c : Bool) : Bool :=
  match o with
  | some InsOpt.fn => true
  | _ => c

/-- A model instance as observed by an insertMany callback: constructed by
the base class or by the tenant-bound class (new this(doc),
src/lib/index.ts line 149). -/
inductive MInstance where
  | base (d : Doc)
  | bound (t : TValue) (d : Doc)
deriving DecidableEq

/-- Whether an instance was constructed by the tenant-bound class. -/
def isBoundInstance : MInstance → Bool
  | .base _ => false
  | .bound _ _ => true

/-- What an insertMany completion callback receives: an error together with
the raw result, or the successful result list. -/
inductive CbResult where
  | errorRes (res : List Doc)
  | success (ms : List MInstance)
deriving DecidableEq

/-- The delivery behaviour of the internal callback the insertMany override
passes to super.insertMany (src/lib/index.ts lines 144-151): nothing is
delivered without a caller callback; an error is forwarded with the raw
result; on success the results are re-wrapped as bound-model instances. -/
def insertManyDeliver (t : TValue) (hasCb : Bool) (err : Bool)
    (res : List Doc) : Option CbResult :=
  if hasCb = false then none
  else if err = true then some (CbResult.errorRes res)
  else some (CbResult.success (res.map fun d => MInstance.bound t d))

/-- Arguments of a call to the base insertMany. -/
inductive SuperArg where
  | docsA (a : DocsArg)
  | optsA (o : Doc)
  | cbA
deriving DecidableEq

/-- The argument list the insertMany override passes to super.insertMany
(src/lib/index.ts lines 142-152): the rewritten docs and the internal
callback only; the caller options and callback parameters do not appear. -/
def insertManySuperArgs (k : String) (t : TValue) (docs : DocsArg)
    (_o : Option InsOpt) (_c : Bool) : List SuperArg :=
  [SuperArg.docsA (insertManyDocs k t docs), SuperArg.cbA]

/-- Another plugin installation as observed by isCompatibleTo: whether it
exposes the two introspection functions, and the tenant field name the
latter reports. -/
structure PluginIface where
  hasGetAccessorMethod : Bool
  hasGetTenantIdKey : Bool
  tenantIdKey : String
deriving DecidableEq

/-- MongoTenant.isCompatibleTo (src/lib/index.ts lines 247-254):
Boolean(plugin and both introspection functions present and equal tenant
field names), with JS short-circuit evaluation. -/
def isCompatibleTo (selfTenantIdKey : String) : Option PluginIface → Bool
  | none => false
  | some p =>
      p.hasGetAccessorMethod &&
        (p.hasGetTenantIdKey && decide (selfTenantIdKey = p.tenantIdKey))

/-- The state of the two-level bound-model cache of MongoTenant.injectApi
(src/lib/index.ts lines 312-340): model name to tenant string to the
identity of the cached bound class, plus a counter of factory invocations
and a supply of fresh identities. -/
structure CacheState where
  cache : List (String × List (String × Nat))
  nextModelId : Nat
  factoryCalls : Nat
deriving DecidableEq

/-- The value returned by the accessor method: the unbound base model (when
the plugin is disabled) or a bound model identified by its cache identity. -/
inductive ModelRef where
  | base
  | bound (id : Nat)
deriving DecidableEq

/-- The accessor method installed by MongoTenant.injectApi (src/lib/index.ts
lines 317-330): return the base model when disabled; otherwise look the
String form of the tenant id up in the per-model cache, invoking the
factory and storing the result on a miss. -/
def byTenant (enabled : Bool) (modelName : String) (tid : TValue)
    (st : CacheState) : ModelRef × CacheState :=
  if enabled then
    let strT := jsString tid
    let inner := (getEntry st.cache modelName).getD []
    match getEntry inner strT with
    | some mid => (ModelRef.bound mid, st)
    | none =>
        let mid := st.nextModelId
        (ModelRef.bound mid,
          { cache := setEntry st.cache modelName (setEntry inner strT mid)
            nextModelId := mid + 1
            factoryCalls := st.factoryCalls + 1 })
  else (ModelRef.base, st)

/-- A schema path as far as the plugin observes it: its name and the
index-relevant options (path.options of mongoose). -/
structure PathModel where
  name : String
  unique : Bool := false
  preserveUniqueKey : Bool := false
  hasIndex : Bool := false
  sparse : Bool := false
deriving DecidableEq

/-- Index options of a schema-level index. -/
structure IndexOptions where
  unique : Bool := false
  preserveUniqueKey : Bool := false
  sparse : Bool := false
deriving DecidableEq

/-- A schema-level index: key specification (field name to direction) and
options. -/
structure SchemaIndex where
  keySpec : List (String × Int)
  opts : IndexOptions
deriving DecidableEq

/-- The schema as far as the index machinery observes it: the field paths
and the stored schema-level indexes (schema underscore-indexes in
mongoose). -/
structure SchemaModel where
  paths : List PathModel
  userIndexes : List SchemaIndex
deriving DecidableEq

/-- Models mongoose Schema.prototype.indexes(): one freshly built index per
path carrying an index-relevant option, concatenated with the stored
schema-level index tuples.  The per-path tuples are rebuilt on every call,
so mutations of them do not persist; only mutations of the stored
schema-level tuples do. -/
def schemaIndexes (s : SchemaModel) : List SchemaIndex :=
  (s.paths.filterMap fun p =>
    if p.unique || p.hasIndex then
      some (SchemaIndex.mk [(p.name, 1)]
        { unique := p.unique, preserveUniqueKey := false, sparse := p.sparse })
    else none) ++ s.userIndexes

/-- MongoTenant.extendSchema (src/lib/index.ts lines 259-269): add the
tenant id path with an index, unless the plugin is disabled. -/
def extendSchema (enabled : Bool) (k : String) (s : SchemaModel) :
    SchemaModel :=
  if enabled then
    { s with
      paths := s.paths ++
        [{ name := k, unique := false, preserveUniqueKey := false,
           hasIndex := true, sparse := false }] }
  else s

/-- The key specification rewriting of the first loop of
MongoTenant.compoundIndexes (src/lib/index.ts lines 283-287): start from
the tenant field and assign every original field onto it in order, with JS
object insertion semantics. -/
def rewriteKeySpec (k : String) (spec : List (String × Int)) :
    List (String × Int) :=
  applyEntries spec [(k, 1)]

/-- MongoTenant.compoundIndexes (src/lib/index.ts lines 275-304).  The first
loop iterates Schema.prototype.indexes() and replaces the key specification
of every unique, non-opted-out index; only the replacements on stored
schema-level tuples persist (the per-path tuples are rebuilt afresh by
indexes(), see schemaIndexes), so its net effect is a map over the stored
schema-level indexes.  The second loop appends, for every path with the
unique option and without the opt-out, a compound (tenant, field) index
whose options copy the path options with unique set.  Note that the code
does not clear the unique option of the path itself. -/
def compoundIndexes (enabled : Bool) (k : String) (s : SchemaModel) :
    SchemaModel :=
  if enabled then
    { s with
      userIndexes :=
        (s.userIndexes.map fun idx =>
          if idx.opts.unique && !idx.opts.preserveUniqueKey then
            SchemaIndex.mk (rewriteKeySpec k idx.keySpec) idx.opts
          else idx) ++
        (s.paths.filterMap fun p =>
          if p.unique && !p.preserveUniqueKey then
            some (SchemaIndex.mk [(k, 1), (p.name, 1)]
              { unique := true, preserveUniqueKey := p.preserveUniqueKey,
                sparse := p.sparse })
          else none) }
  else s

/-- The schema-affecting part of MongoTenant.apply (src/lib/index.ts
line 190): extendSchema then compoundIndexes (injectApi and
installMiddleWare do not touch the schema indexes). -/
def applyPlugin (enabled : Bool) (k : String) (s : SchemaModel) :
    SchemaModel :=
  compoundIndexes enabled k (extendSchema enabled k s)

/-- Models the external MongoDB duplicate-key check for one index: a unique
index rejects a new document when some existing document carries equal
values on every indexed field. -/
def violatesIndex (idx : SchemaIndex) (d e : Doc) : Bool :=
  idx.opts.unique &&
    idx.keySpec.all fun kv => decide (getEntry d kv.1 = getEntry e kv.1)

/-- Models the external MongoDB insert acceptance: a document saves into a
collection exactly when no unique index of the schema is violated against
any existing document. -/
def saveOk (s : SchemaModel) (coll : List Doc) (d : Doc) : Bool :=
  !((schemaIndexes s).any fun idx => coll.any fun e => violatesIndex idx d e)

/-- A write operation issued through a tenant-bound model: a document save,
a bulk insert, or an update (payload plus the targeted stored document). -/
inductive WriteOp where
  | saveOp (d : Doc)
  | insertManyOp (a : DocsArg)
  | updateOp (u : Doc) (target : Doc)
deriving DecidableEq

/-- Well-formedness of a write operation: an update payload, being a JS
object, has no duplicate keys. -/
def WriteOp.wfB : WriteOp → Bool
  | .updateOp u _ => decide (u.map Prod.fst).Nodup
  | _ => true

/-- The stored documents a write through a model bound to tenant t
produces: the saved document after the preSave hook, the bulk-inserted
documents after the insertMany override, or the targeted document with the
hook-rewritten update payload applied. -/
def writeResults (k : String) (t : TValue) : WriteOp → List Doc
  | .saveOp d => [(preSave k (some t) d).1]
  | .insertManyOp a => docsArgList (insertManyDocs k t a)
  | .updateOp u target =>
      [applyEntries (preUpdate k (some t) [] u).2.1 target]

/-- The result of a find executed through a model bound to tenant t: the
collection filtered by the query rewritten by the preFindOrCount hook. -/
def findExec (k : String) (t : TValue) (f : Doc) (coll : List Doc) :
    List Doc :=
  coll.filter fun d => docMatches d (preFindOrCount k (some t) f).1

/-- The result of a findOne executed through a bound model: the first find
result. -/
def findOneExec (k : String) (t : TValue) (f : Doc) (coll : List Doc) :
    Option Doc :=
  (findExec k t f coll).head?

/-- The result of count and countDocuments executed through a bound model:
the size of the find result under the same rewritten query. -/
def countExec (k : String) (t : TValue) (f : Doc) (coll : List Doc) : Nat :=
  (findExec k t f coll).length

/-- A schema with a single field-level unique constraint on email, the
scenario of the per-tenant uniqueness property. -/
def emailSchema : SchemaModel :=
  { paths := [{ name := "email", unique := true, preserveUniqueKey := false,
                hasIndex := false, sparse := false }],
    userIndexes := [] }

theorem getEntry_setEntry_self {α : Type} (l : List (String × α)) (k : String)
    (v : α) : getEntry (setEntry l k v) k = some v := by
  induction l with
  | nil => simp [setEntry, getEntry]
  | cons hd tl ih =>
      obtain ⟨k0, v0⟩ := hd
      by_cases hk : k0 = k
      · simp [setEntry, getEntry, hk]
      · simp [setEntry, getEntry, hk, ih]

theorem getEntry_setEntry_of_ne {α : Type} (l : List (String × α))
    (k k0 : String) (v : α) (h : k ≠ k0) :
    getEntry (setEntry l k v) k0 = getEntry l k0 := by
  induction l with
  | nil => simp [setEntry, getEntry, h]
  | cons hd tl ih =>
      obtain ⟨k1, v1⟩ := hd
      by_cases hk : k1 = k
      · have hne : k1 ≠ k0 := by rw [hk]; exact h
        simp [setEntry, getEntry, hk, hne, h]
      · by_cases hk0 : k1 = k0
        · have hne2 : ¬(k0 = k) := hk0 ▸ hk
          simp [setEntry, getEntry, hk, hk0, hne2]
        · simp [setEntry, getEntry, hk, hk0, ih]

theorem mem_setEntry_self {α : Type} (l : List (String × α)) (k : String)
    (v : α) : (k, v) ∈ setEntry l k v := by
  induction l with
  | nil => simp [setEntry]
  | cons hd tl ih =>
      obtain ⟨k0, v0⟩ := hd
      by_cases hk : k0 = k
      · subst hk
        simp [setEntry]
      · simp only [setEntry, if_neg hk, List.mem_cons]
        exact Or.inr ih

theorem setEntry_of_not_mem {α : Type} (l : List (String × α)) (k : String)
    (v : α) (h : k ∉ l.map Prod.fst) : setEntry l k v = l ++ [(k, v)] := by
  induction l with
  | nil => simp [setEntry]
  | cons hd tl ih =>
      obtain ⟨k0, v0⟩ := hd
      simp only [List.map_cons, List.mem_cons, not_or] at h
      have hne : k0 ≠ k := fun hh => h.1 hh.symm
      simp [setEntry, hne, ih h.2]

theorem docMatches_mem (d : Doc) (f : Doc) (k : String) (v : TValue)
    (hmem : (k, v) ∈ f) (h : docMatches d f = true) :
    getEntry d k = some v := by
  have := (List.all_eq_true.mp h) (k, v) hmem
  exact of_decide_eq_true this

theorem docMatches_setEntry_tenant (d : Doc) (f : Doc) (k : String)
    (t : TValue) (h : docMatches d (setEntry f k t) = true) :
    getEntry d k = some t :=
  docMatches_mem d (setEntry f k t) k t (mem_setEntry_self f k t) h

theorem getEntry_applyEntries_of_not_mem {α : Type}
    (p : List (String × α)) (d : List (String × α)) (k : String)
    (h : k ∉ p.map Prod.fst) :
    getEntry (applyEntries p d) k = getEntry d k := by
  induction p generalizing d with
  | nil => simp [applyEntries]
  | cons hd tl ih =>
      obtain ⟨k0, v0⟩ := hd
      simp only [List.map_cons, List.mem_cons, not_or] at h
      have hstep : applyEntries ((k0, v0) :: tl) d =
          applyEntries tl (setEntry d k0 v0) := rfl
      rw [hstep, ih (setEntry d k0 v0) h.2,
        getEntry_setEntry_of_ne d k0 k v0 (fun hh => h.1 hh.symm)]

theorem getEntry_applyEntries_setEntry_self (u : Doc) (d : Doc) (k : String)
    (t : TValue) (hnd : (u.map Prod.fst).Nodup) :
    getEntry (applyEntries (setEntry u k t) d) k = some t := by
  induction u generalizing d with
  | nil =>
      show getEntry (applyEntries [(k, t)] d) k = some t
      show getEntry (setEntry d k t) k = some t
      exact getEntry_setEntry_self d k t
  | cons hd tl ih =>
      obtain ⟨k0, v0⟩ := hd
      simp only [List.map_cons, List.nodup_cons] at hnd
      by_cases hk : k0 = k
      · subst hk
        have hstep : setEntry ((k0, v0) :: tl) k0 t = (k0, t) :: tl := by
          simp [setEntry]
        rw [hstep]
        have : applyEntries ((k0, t) :: tl) d =
            applyEntries tl (setEntry d k0 t) := rfl
        rw [this, getEntry_applyEntries_of_not_mem tl (setEntry d k0 t) k0
          hnd.1]
        exact getEntry_setEntry_self d k0 t
      · have hstep : setEntry ((k0, v0) :: tl) k t =
            (k0, v0) :: setEntry tl k t := by
          simp [setEntry, hk]
        rw [hstep]
        have : applyEntries ((k0, v0) :: setEntry tl k t) d =
            applyEntries (setEntry tl k t) (setEntry d k0 v0) := rfl
        rw [this]
        exact ih (setEntry d k0 v0) hnd.2

theorem applyEntries_of_fresh {α : Type} (p : List (String × α))
    (acc : List (String × α)) (hnd : (p.map Prod.fst).Nodup)
    (hfresh : ∀ key ∈ p.map Prod.fst, key ∉ acc.map Prod.fst) :
    applyEntries p acc = acc ++ p := by
  induction p generalizing acc with
  | nil => simp [applyEntries]
  | cons hd tl ih =>
      obtain ⟨k0, v0⟩ := hd
      simp only [List.map_cons, List.nodup_cons] at hnd
      have hk0 : k0 ∉ acc.map Prod.fst := by
        exact hfresh k0 (by simp)
      have hstep : applyEntries ((k0, v0) :: tl) acc =
          applyEntries tl (setEntry acc k0 v0) := rfl
      rw [hstep, setEntry_of_not_mem acc k0 v0 hk0]
      rw [ih (acc ++ [(k0, v0)]) hnd.2]
      · simp
      · intro key hkey
        simp only [List.map_append, List.mem_append, List.map_cons,
          List.mem_singleton, not_or]
        refine ⟨fun hcontra => ?_, fun hcontra => ?_⟩
        · exact hfresh key (by simp [hkey]) hcontra
        · simp only [List.map_cons, List.map_nil, List.mem_singleton]
            at hcontra
          exact hnd.1 (hcontra ▸ hkey)

theorem rewriteKeySpec_of_fresh (k : String) (spec : List (String × Int))
    (hnd : (spec.map Prod.fst).Nodup) (hk : k ∉ spec.map Prod.fst) :
    rewriteKeySpec k spec = (k, 1) :: spec := by
  show applyEntries spec [(k, 1)] = (k, 1) :: spec
  rw [applyEntries_of_fresh spec [(k, 1)] hnd]
  · rfl
  · intro key hkey
    simp only [List.map_cons, List.map_nil, List.mem_singleton]
    exact fun hcontra => hk (hcontra ▸ hkey)

theorem mem_of_headq_eq_some {α : Type} (l : List α) (a : α)
    (h : l.head? = some a) : a ∈ l := by
  cases l with
  | nil => simp at h
  | cons x xs =>
      simp only [List.head?_cons, Option.some.injEq] at h
      exact h ▸ List.mem_cons_self x xs

theorem writeResults_tenant (k : String) (t : TValue) (op : WriteOp)
    (hwf : op.wfB = true) (d : Doc) (hd : d ∈ writeResults k t op) :
    getEntry d k = some t := by
  cases op with
  | saveOp d0 =>
      simp only [writeResults, preSave, List.mem_singleton] at hd
      exact hd ▸ getEntry_setEntry_self d0 k t
  | insertManyOp a =>
      cases a with
      | single d0 =>
          simp only [writeResults, insertManyDocs, docsArgList,
            List.mem_singleton] at hd
          exact hd ▸ getEntry_setEntry_self d0 k t
      | array ds =>
          simp only [writeResults, insertManyDocs, docsArgList,
            List.mem_map] at hd
          obtain ⟨d0, _, rfl⟩ := hd
          exact getEntry_setEntry_self d0 k t
  | updateOp u target =>
      simp only [writeResults, preUpdate, List.mem_singleton] at hd
      have hnd : (u.map Prod.fst).Nodup := by
        have := hwf
        simp only [WriteOp.wfB] at this
        exact of_decide_eq_true this
      exact hd ▸ getEntry_applyEntries_setEntry_self u target k t hnd

theorem mem_findExec_tenant (k : String) (t : TValue) (f : Doc)
    (coll : List Doc) (d : Doc) (hd : d ∈ findExec k t f coll) :
    getEntry d k = some t := by
  simp only [findExec, preFindOrCount, List.mem_filter] at hd
  exact docMatches_setEntry_tenant d f k t hd.2

theorem evalStage_subset (s : Stage) (l : List Doc) (d : Doc)
    (hd : d ∈ evalStage s l) : d ∈ l := by
  cases s with
  | matchS f => exact List.mem_of_mem_filter hd
  | limit n => exact List.take_subset n l hd
  | skip n => exact List.drop_subset n l hd

theorem evalPipeline_subset (stages : List Stage) (l : List Doc) (d : Doc)
    (hd : d ∈ evalPipeline stages l) : d ∈ l := by
  induction stages generalizing l with
  | nil => exact hd
  | cons s rest ih =>
      have hstep : evalPipeline (s :: rest) l =
          evalPipeline rest (evalStage s l) := rfl
      rw [hstep] at hd
      exact evalStage_subset s l d (ih (evalStage s l) hd)

theorem aggregate_mem_tenant (k : String) (t : TValue)
    (p : Option (List Stage)) (stages : List Stage) (coll : List Doc)
    (d : Doc) (hp : aggregateArgs k t p = some stages)
    (hd : d ∈ evalPipeline stages coll) : getEntry d k = some t := by
  cases p with
  | none =>
      simp only [aggregateArgs, Option.some.injEq] at hp
      subst hp
      have hmem : d ∈ evalStage (Stage.matchS [(k, t)]) coll := hd
      simp only [evalStage, List.mem_filter] at hmem
      exact docMatches_mem d [(k, t)] k t (by simp) hmem.2
  | some pl =>
      cases pl with
      | nil => simp [aggregateArgs] at hp
      | cons s rest =>
          cases s with
          | matchS f =>
              simp only [aggregateArgs, Option.some.injEq] at hp
              subst hp
              have hstep :
                  evalPipeline (Stage.matchS (setEntry f k t) :: rest) coll =
                    evalPipeline rest
                      (evalStage (Stage.matchS (setEntry f k t)) coll) := rfl
              rw [hstep] at hd
              have hmem := evalPipeline_subset rest _ d hd
              simp only [evalStage, List.mem_filter] at hmem
              exact docMatches_setEntry_tenant d f k t hmem.2
          | limit n =>
              simp only [aggregateArgs, Option.some.injEq] at hp
              subst hp
              have hstep :
                  evalPipeline
                      (Stage.matchS [(k, t)] :: Stage.limit n :: rest) coll =
                    evalPipeline (Stage.limit n :: rest)
                      (evalStage (Stage.matchS [(k, t)]) coll) := rfl
              rw [hstep] at hd
              have hmem := evalPipeline_subset _ _ d hd
              simp only [evalStage, List.mem_filter] at hmem
              exact docMatches_mem d [(k, t)] k t (by simp) hmem.2
          | skip n =>
              simp only [aggregateArgs, Option.some.injEq] at hp
              subst hp
              have hstep :
                  evalPipeline
                      (Stage.matchS [(k, t)] :: Stage.skip n :: rest) coll =
                    evalPipeline (Stage.skip n :: rest)
                      (evalStage (Stage.matchS [(k, t)]) coll) := rfl
              rw [hstep] at hd
              have hmem := evalPipeline_subset _ _ d hd
              simp only [evalStage, List.mem_filter] at hmem
              exact docMatches_mem d [(k, t)] k t (by simp) hmem.2

/-- C3 counterexample: calling aggregate through a bound model with an
empty pipeline array does not prepend the tenant match stage as the claim
states for the otherwise case; the code dereferences the first pipeline
element unconditionally and throws a TypeError (modelled as none). -/
theorem aggregateEmptyPipeline_cex :
    aggregateArgs "tenant" (TValue.str "t1") (some []) = none ∧
    aggregateArgs "tenant" (TValue.str "t1") (some []) ≠
      some [Stage.matchS [("tenant", TValue.str "t1")]] :=
  ⟨rfl, by decide⟩

/-- C3 (amended): for every call to aggregate on a tenant-bound model, if
no pipeline is given the base aggregate receives the single tenant match
stage; if the given pipeline is non-empty and starts with a match stage,
the tenant field/value is merged into that stage (one merged stage, not
two); if it is non-empty and starts with a non-match stage, a tenant match
stage is prepended; an empty pipeline array causes a runtime TypeError
(modelled as none). -/
theorem aggregateScoping (k : String) (t : TValue) :
    aggregateArgs k t none = some [Stage.matchS [(k, t)]] ∧
    (∀ (f : Doc) (rest : List Stage),
      aggregateArgs k t (some (Stage.matchS f :: rest)) =
        some (Stage.matchS (setEntry f k t) :: rest)) ∧
    (∀ (n : Nat) (rest : List Stage),
      aggregateArgs k t (some (Stage.limit n :: rest)) =
        some (Stage.matchS [(k, t)] :: Stage.limit n :: rest)) ∧
    (∀ (n : Nat) (rest : List Stage),
      aggregateArgs k t (some (Stage.skip n :: rest)) =
        some (Stage.matchS [(k, t)] :: Stage.skip n :: rest)) ∧
    aggregateArgs k t (some []) = none :=
  ⟨rfl, fun _ _ => rfl, fun _ _ => rfl, fun _ _ => rfl, rfl⟩

/-- C4: for deleteOne, deleteMany and remove on a bound model, an absent or
function-valued first argument makes the override pass a filter holding
only the tenant scoping as new first argument, shifting the rest right; a
given filter object is updated in place with the tenant field set to the
bound identifier, overwriting any caller-supplied value for that field. -/
theorem deleteScoping (k : String) (t : TValue) :
    (deleteOneArgs k t [] = [DelArg.obj [(k, t)]] ∧
      deleteManyArgs k t [] = [DelArg.obj [(k, t)]] ∧
      removeArgs k t [] = [DelArg.obj [(k, t)]]) ∧
    (∀ rest : List DelArg,
      deleteOneArgs k t (DelArg.fn :: rest) =
          DelArg.obj [(k, t)] :: DelArg.fn :: rest ∧
        deleteManyArgs k t (DelArg.fn :: rest) =
          DelArg.obj [(k, t)] :: DelArg.fn :: rest ∧
        removeArgs k t (DelArg.fn :: rest) =
          DelArg.obj [(k, t)] :: DelArg.fn :: rest) ∧
    (∀ (f : Doc) (rest : List DelArg),
      deleteOneArgs k t (DelArg.obj f :: rest) =
          DelArg.obj (setEntry f k t) :: rest ∧
        deleteManyArgs k t (DelArg.obj f :: rest) =
          DelArg.obj (setEntry f k t) :: rest ∧
        removeArgs k t (DelArg.obj f :: rest) =
          DelArg.obj (setEntry f k t) :: rest) ∧
    (∀ f : Doc, getEntry (setEntry f k t) k = some t) :=
  ⟨⟨rfl, rfl, rfl⟩, fun _ => ⟨rfl, rfl, rfl⟩, fun _ _ => ⟨rfl, rfl, rfl⟩,
    fun f => getEntry_setEntry_self f k t⟩

/-- C7: isCompatibleTo returns true exactly when the other plugin is
present, exposes both introspection functions, and reports the identical
tenant field name. -/
theorem isCompatibleToSpec (k : String) (p : Option PluginIface) :
    isCompatibleTo k p = true ↔
      ∃ pl : PluginIface, p = some pl ∧ pl.hasGetAccessorMethod = true ∧
        pl.hasGetTenantIdKey = true ∧ pl.tenantIdKey = k := by
  cases p with
  | none => simp [isCompatibleTo]
  | some pl =>
      constructor
      · intro h
        simp only [isCompatibleTo, Bool.and_eq_true, decide_eq_true_eq] at h
        exact ⟨pl, rfl, h.1, h.2.1, h.2.2.symm⟩
      · rintro ⟨pl2, heq, h1, h2, h3⟩
        obtain rfl := Option.some.inj heq
        simp [isCompatibleTo, h1, h2, h3]

/-- C8: every installed pre-hook leaves query, update payload and document
unchanged on a model without tenant context, merges the tenant field into
the query (and sets it in the update payload, and on the saved document)
under tenant context, and calls next() unconditionally.  preFindOrCount is
registered for find, findOne, findOneAndRemove, count and countDocuments;
preUpdate for findOneAndUpdate, update and updateMany; preSave for save. -/
theorem middlewareHooks (k : String) (t : TValue) (q u d : Doc) :
    (preFindOrCount k none q = (q, true) ∧
      preUpdate k none q u = (q, u, true) ∧
      preSave k none d = (d, true)) ∧
    (preFindOrCount k (some t) q = (setEntry q k t, true) ∧
      preUpdate k (some t) q u = (setEntry q k t, setEntry u k t, true) ∧
      preSave k (some t) d = (setEntry d k t, true)) ∧
    (∀ ctx : Option TValue,
      (preFindOrCount k ctx q).2 = true ∧ (preUpdate k ctx q u).2.2 = true ∧
        (preSave k ctx d).2 = true) := by
  refine ⟨⟨rfl, rfl, rfl⟩, ⟨rfl, rfl, rfl⟩, fun ctx => ?_⟩
  cases ctx <;> exact ⟨rfl, rfl, rfl⟩

/-- C2 (code bug): after applying the plugin to a schema with a field-level
unique constraint on email, the first save of a document succeeds, but a
second document with the same email and a DIFFERENT tenant is also
rejected, contradicting the claim: the code never clears the unique option
of the email path (the upstream project deletes it), so the global
single-field unique index on email survives next to the new compound
(tenant, email) index.  The same-tenant rejection required by the claim
does hold. -/
theorem fieldLevelUniquePerTenant_bug :
    saveOk (applyPlugin true "tenant" emailSchema) []
        [("email", TValue.str "a"), ("tenant", TValue.str "t1")] = true ∧
    saveOk (applyPlugin true "tenant" emailSchema)
        [[("email", TValue.str "a"), ("tenant", TValue.str "t1")]]
        [("email", TValue.str "a"), ("tenant", TValue.str "t2")] = false ∧
    saveOk (applyPlugin true "tenant" emailSchema)
        [[("email", TValue.str "a"), ("tenant", TValue.str "t1")]]
        [("email", TValue.str "a"), ("tenant", TValue.str "t1")] = false := by
  decide

/-- C5: every document passed to insertMany on a bound model has the tenant
field force-set to the bound identifier before the base insert is invoked
(single document or array alike), and on success a caller-supplied
completion callback receives instances of the bound model class, not the
base class. -/
theorem insertManyScoping (k : String) (t : TValue) (a : DocsArg)
    (res : List Doc) :
    (∀ d ∈ docsArgList (insertManyDocs k t a), getEntry d k = some t) ∧
    insertManyDeliver t true false res =
      some (CbResult.success (res.map fun d => MInstance.bound t d)) ∧
    (∀ ms : List MInstance,
      insertManyDeliver t true false res = some (CbResult.success ms) →
        ∀ m ∈ ms, isBoundInstance m = true) := by
  refine ⟨?_, rfl, ?_⟩
  · intro d hd
    exact writeResults_tenant k t (WriteOp.insertManyOp a) rfl d hd
  · intro ms hms m hm
    have hred : insertManyDeliver t true false res =
        some (CbResult.success (res.map fun d => MInstance.bound t d)) := rfl
    rw [hred] at hms
    have hsucc := Option.some.inj hms
    have hlist : res.map (fun d => MInstance.bound t d) = ms := by
      cases hsucc
      rfl
    rw [← hlist] at hm
    obtain ⟨d0, _, rfl⟩ := List.mem_map.mp hm
    rfl

/-- C5 witness: bulk insert of one document through tenant t1 yields a
stored document whose tenant field is t1. -/
theorem insertManyScoping_witness :
    [("x", TValue.num 1), ("tenant", TValue.str "t1")] ∈
        docsArgList (insertManyDocs "tenant" (TValue.str "t1")
          (DocsArg.array [[("x", TValue.num 1)]])) ∧
    getEntry [("x", TValue.num 1), ("tenant", TValue.str "t1")] "tenant" =
      some (TValue.str "t1") :=
  ⟨by decide,
    (insertManyScoping "tenant" (TValue.str "t1")
        (DocsArg.array [[("x", TValue.num 1)]]) []).1
      [("x", TValue.num 1), ("tenant", TValue.str "t1")] (by decide)⟩

/-- C10: the insertMany override never forwards a caller options argument
to the base insertMany, which receives only the rewritten documents and
the internally constructed callback; when the caller supplies no
completion callback, neither documents nor an error are delivered back
through that callback path. -/
theorem insertManyOptionsDropped (k : String) (t : TValue) (a : DocsArg)
    (o : Option InsOpt) (c : Bool) (err : Bool) (res : List Doc)
    (hno : insertManyCb o c = false) :
    insertManySuperArgs k t a o c =
      [SuperArg.docsA (insertManyDocs k t a), SuperArg.cbA] ∧
    (∀ x ∈ insertManySuperArgs k t a o c,
      ∀ od : Doc, x ≠ SuperArg.optsA od) ∧
    insertManyDeliver t (insertManyCb o c) err res = none := by
  refine ⟨rfl, ?_, ?_⟩
  · intro x hx od
    simp only [insertManySuperArgs, List.mem_cons, List.not_mem_nil,
      or_false, List.mem_singleton] at hx
    rcases hx with rfl | rfl
    · exact fun hcontra => SuperArg.noConfusion hcontra
    · exact fun hcontra => SuperArg.noConfusion hcontra
  · rw [hno]
    rfl

/-- C10 witness: with an options object and no callback, the base call
holds only docs and the internal callback, and an insertion error is not
delivered anywhere. -/
theorem insertManyOptionsDropped_witness :
    insertManyCb (some (InsOpt.opts [("ordered", TValue.boolV false)]))
        false = false ∧
    insertManyDeliver (TValue.str "t1")
        (insertManyCb (some (InsOpt.opts [("ordered", TValue.boolV false)]))
          false)
        true [[("x", TValue.num 1)]] = none :=
  ⟨rfl,
    (insertManyOptionsDropped "tenant" (TValue.str "t1")
        (DocsArg.single [("x", TValue.num 1)])
        (some (InsOpt.opts [("ordered", TValue.boolV false)])) false true
        [[("x", TValue.num 1)]] rfl).2.2⟩

theorem byTenant_hit (modelName : String) (t : TValue) (st : CacheState)
    (mid : Nat)
    (h : getEntry ((getEntry st.cache modelName).getD []) (jsString t) =
      some mid) :
    byTenant true modelName t st = (ModelRef.bound mid, st) := by
  simp [byTenant, h]

theorem byTenant_miss (modelName : String) (t : TValue) (st : CacheState)
    (h : getEntry ((getEntry st.cache modelName).getD []) (jsString t) =
      none) :
    byTenant true modelName t st =
      (ModelRef.bound st.nextModelId,
        { cache := setEntry st.cache modelName
            (setEntry ((getEntry st.cache modelName).getD []) (jsString t)
              st.nextModelId)
          nextModelId := st.nextModelId + 1
          factoryCalls := st.factoryCalls + 1 }) := by
  simp [byTenant, h]

/-- C6: with the plugin enabled, two accessor calls with tenant identifiers
of equal string form return the identical cached bound model, and the
second call leaves the whole cache state untouched (so the factory runs at
most once per (model name, tenant string) pair: exactly once on a first
access, never on a cache hit). -/
theorem byTenantCache (modelName : String) (t1 t2 : TValue)
    (st : CacheState) (hstr : jsString t1 = jsString t2) :
    (byTenant true modelName t2 (byTenant true modelName t1 st).2).1 =
      (byTenant true modelName t1 st).1 ∧
    (byTenant true modelName t2 (byTenant true modelName t1 st).2).2 =
      (byTenant true modelName t1 st).2 ∧
    (getEntry ((getEntry st.cache modelName).getD []) (jsString t1) =
        none →
      (byTenant true modelName t1 st).2.factoryCalls =
        st.factoryCalls + 1) ∧
    (∀ mid : Nat,
      getEntry ((getEntry st.cache modelName).getD []) (jsString t1) =
          some mid →
        (byTenant true modelName t1 st).2 = st) := by
  rcases h : getEntry ((getEntry st.cache modelName).getD [])
      (jsString t1) with _ | mid
  · have e1 := byTenant_miss modelName t1 st h
    rw [e1]
    have hcache : getEntry
        ((getEntry (setEntry st.cache modelName
            (setEntry ((getEntry st.cache modelName).getD [])
              (jsString t1) st.nextModelId)) modelName).getD [])
          (jsString t2) = some st.nextModelId := by
      rw [getEntry_setEntry_self, Option.getD_some, ← hstr,
        getEntry_setEntry_self]
    have e2 := byTenant_hit modelName t2
      { cache := setEntry st.cache modelName
          (setEntry ((getEntry st.cache modelName).getD [])
            (jsString t1) st.nextModelId)
        nextModelId := st.nextModelId + 1
        factoryCalls := st.factoryCalls + 1 } st.nextModelId hcache
    rw [e2]
    exact ⟨rfl, rfl, fun _ => rfl, fun mid2 hsome => Option.noConfusion hsome⟩
  · have e1 := byTenant_hit modelName t1 st mid h
    rw [e1]
    have hcache : getEntry ((getEntry st.cache modelName).getD [])
        (jsString t2) = some mid := by rw [← hstr]; exact h
    have e2 := byTenant_hit modelName t2 st mid hcache
    rw [e2]
    exact ⟨rfl, rfl, fun hnone => Option.noConfusion hnone, fun _ _ => rfl⟩

/-- C6 witness: the string tenant id "7" and the numeric tenant id 7 have
the same string form and yield the identical cached bound model. -/
theorem byTenantCache_witness :
    jsString (TValue.str "7") = jsString (TValue.num 7) ∧
    (byTenant true "user" (TValue.num 7)
        (byTenant true "user" (TValue.str "7")
          (CacheState.mk [] 0 0)).2).1 =
      (byTenant true "user" (TValue.str "7") (CacheState.mk [] 0 0)).1 :=
  ⟨by decide,
    (byTenantCache "user" (TValue.str "7") (TValue.num 7)
        (CacheState.mk [] 0 0) (by decide)).1⟩

/-- C9: after plugin setup on an enabled schema, every schema-level index
marked unique without the preserveUniqueKey opt-out reappears with the
tenant field prepended to its key specification, original fields in their
original order and all other index options untouched (stated for indexes
whose key specification, being a JS object, has no duplicate field names
and does not already contain the tenant field); opted-out or non-unique
schema-level indexes are left unchanged. -/
theorem uniqueIndexRewrite (k : String) (s : SchemaModel)
    (idx : SchemaIndex) (hmem : idx ∈ s.userIndexes) :
    (idx.opts.unique = true → idx.opts.preserveUniqueKey = false →
      (idx.keySpec.map Prod.fst).Nodup → k ∉ idx.keySpec.map Prod.fst →
      SchemaIndex.mk ((k, 1) :: idx.keySpec) idx.opts ∈
        (applyPlugin true k s).userIndexes) ∧
    (idx.opts.unique = false ∨ idx.opts.preserveUniqueKey = true →
      idx ∈ (applyPlugin true k s).userIndexes) := by
  have happ : (applyPlugin true k s).userIndexes =
      (s.userIndexes.map fun i =>
        if i.opts.unique && !i.opts.preserveUniqueKey then
          SchemaIndex.mk (rewriteKeySpec k i.keySpec) i.opts
        else i) ++
      ((extendSchema true k s).paths.filterMap fun p =>
        if p.unique && !p.preserveUniqueKey then
          some (SchemaIndex.mk [(k, 1), (p.name, 1)]
            { unique := true, preserveUniqueKey := p.preserveUniqueKey,
              sparse := p.sparse })
        else none) := rfl
  constructor
  · intro h1 h2 hnd hk
    have hf : (fun i : SchemaIndex =>
        if i.opts.unique && !i.opts.preserveUniqueKey then
          SchemaIndex.mk (rewriteKeySpec k i.keySpec) i.opts
        else i) idx =
        SchemaIndex.mk ((k, 1) :: idx.keySpec) idx.opts := by
      simp [h1, h2, rewriteKeySpec_of_fresh k idx.keySpec hnd hk]
    rw [happ]
    exact List.mem_append_left _ (hf ▸ List.mem_map_of_mem _ hmem)
  · intro h
    have hf : (fun i : SchemaIndex =>
        if i.opts.unique && !i.opts.preserveUniqueKey then
          SchemaIndex.mk (rewriteKeySpec k i.keySpec) i.opts
        else i) idx = idx := by
      rcases h with h | h <;> simp [h]
    rw [happ]
    exact List.mem_append_left _ (hf ▸ List.mem_map_of_mem _ hmem)

/-- C9 witness: a schema-level unique compound index on (email, name)
reappears after setup with the tenant field prepended and its options
preserved. -/
theorem uniqueIndexRewrite_witness :
    SchemaIndex.mk [("email", 1), ("name", 1)]
        (IndexOptions.mk true false true) ∈
      [SchemaIndex.mk [("email", 1), ("name", 1)]
        (IndexOptions.mk true false true)] ∧
    SchemaIndex.mk [("tenant", 1), ("email", 1), ("name", 1)]
        (IndexOptions.mk true false true) ∈
      (applyPlugin true "tenant"
        (SchemaModel.mk []
          [SchemaIndex.mk [("email", 1), ("name", 1)]
            (IndexOptions.mk true false true)])).userIndexes :=
  ⟨by decide,
    (uniqueIndexRewrite "tenant"
        (SchemaModel.mk []
          [SchemaIndex.mk [("email", 1), ("name", 1)]
            (IndexOptions.mk true false true)])
        (SchemaIndex.mk [("email", 1), ("name", 1)]
          (IndexOptions.mk true false true))
        (by decide)).1 rfl rfl (by decide) (by decide)⟩

/-- C1: tenant isolation.  Every document written through a model bound to
tenant A (save, insertMany or update) carries tenant field A, while the
documents returned by find, findOne or aggregate executed through a model
bound to tenant B all carry tenant field B, so for A distinct from B a
document written under A is never returned under B; count and
countDocuments run the same rewritten query as find (countExec is the size
of findExec by definition), and adding the A-document to the collection
never changes a B-count. -/
theorem tenantIsolation (k : String) (A B : TValue) (hAB : A ≠ B)
    (op : WriteOp) (hwf : op.wfB = true) (d : Doc)
    (hd : d ∈ writeResults k A op) :
    (∀ (f : Doc) (coll : List Doc), d ∉ findExec k B f coll) ∧
    (∀ (f : Doc) (coll : List Doc), findOneExec k B f coll ≠ some d) ∧
    (∀ (f : Doc) (coll : List Doc),
      countExec k B f (d :: coll) = countExec k B f coll) ∧
    (∀ (p : Option (List Stage)) (stages : List Stage) (coll : List Doc),
      aggregateArgs k B p = some stages → d ∉ evalPipeline stages coll) := by
  have hA : getEntry d k = some A := writeResults_tenant k A op hwf d hd
  have key : ¬getEntry d k = some B := by
    rw [hA]
    intro hcontra
    exact hAB (Option.some.inj hcontra)
  have hfind : ∀ (f : Doc) (coll : List Doc), d ∉ findExec k B f coll :=
    fun f coll hdmem => key (mem_findExec_tenant k B f coll d hdmem)
  refine ⟨hfind, ?_, ?_, ?_⟩
  · intro f coll hone
    exact hfind f coll (mem_of_headq_eq_some _ d hone)
  · intro f coll
    have hPd : docMatches d (preFindOrCount k (some B) f).1 = false := by
      rcases hP : docMatches d (preFindOrCount k (some B) f).1 with _ | _
      · rfl
      · exact absurd (docMatches_setEntry_tenant d f k B hP) key
    simp [countExec, findExec, List.filter_cons, hPd]
  · intro p stages coll hsome hdmem
    exact key (aggregate_mem_tenant k B p stages coll d hsome hdmem)

/-- C1 witness: a document saved through tenant t1 is not among the find
results of tenant t2 over a collection holding exactly that document. -/
theorem tenantIsolation_witness :
    [("x", TValue.num 1), ("tenant", TValue.str "t1")] ∈
        writeResults "tenant" (TValue.str "t1")
          (WriteOp.saveOp [("x", TValue.num 1)]) ∧
    [("x", TValue.num 1), ("tenant", TValue.str "t1")] ∉
      findExec "tenant" (TValue.str "t2") []
        [[("x", TValue.num 1), ("tenant", TValue.str "t1")]] :=
  ⟨by decide,
    (tenantIsolation "tenant" (TValue.str "t1") (TValue.str "t2")
        (by decide) (WriteOp.saveOp [("x", TValue.num 1)]) rfl
        [("x", TValue.num 1), ("tenant", TValue.str "t1")] (by decide)).1
      [] [[("x", TValue.num 1), ("tenant", TValue.str "t1")]]⟩

end MongooseTenant
